import Mathlib

/-!
# Byte dump formatter and lane-detection loop

A shallow embedding of the two snippets of the repository:

* `default-initialized/foo.cpp`: `get_binary_string` and `get_hex_string`,
  which walk the object representation of a value from its last byte to its
  first and render every byte as a fixed-width group;
* `type-conversion-rank_for-loop/lane_detection.cpp`: the loop of `main`
  whose bound `num_lane - 1` is an `int` compared with a `size_t` counter.

Conventions of the embedding.

* A `uint8_t` is a `Fin 256`; a `size_t` is a natural number below `2 ^ 64`
  and its arithmetic is written with an explicit `% 2 ^ 64`.
* The object representation that `reinterpret_cast<const uint8_t*>(&var)`
  exposes is a list of bytes whose length is `sizeof(var)`; a read
  `bytes[k]` is `bytes[k]?`, and a read outside the object is a fault.
* `std::stringstream` is a record of the buffer and of the formatting
  state the code touches (base, field width, fill character).
* Loops are run with fuel; running out of fuel is a fault distinct from an
  out-of-bounds read.
-/

namespace CppSnippets

/-! ## Machine integers -/

/-- Number of value bits of `size_t` on the target of the snippets (x86-64). -/
def SIZE_WIDTH : Nat := 64

/-- Number of values of `size_t`, that is `SIZE_MAX + 1`. -/
def SIZE_MOD : Nat := 2 ^ SIZE_WIDTH

/-- Subtraction of two `size_t` values: unsigned, wrapping modulo `2 ^ 64`. -/
def size_sub (a b : Nat) : Nat := (a + (SIZE_MOD - b % SIZE_MOD)) % SIZE_MOD

/-- The increment `++i` of a `size_t`: unsigned, wrapping modulo `2 ^ 64`. -/
def size_inc (i : Nat) : Nat := (i + 1) % SIZE_MOD

/-- A `uint8_t`. -/
abbrev Byte := Fin 256

/-! ## Object representations -/

/-- The object representation of a value of some type `T`: its `sizeof(T)` bytes in
memory order.  `sizeof` yields a `size_t`, so the length fits in one. -/
structure ObjectRep where
  bytes : List Byte
  size_fits : bytes.length < SIZE_MOD

/-- The operator `sizeof(var)`. -/
def ObjectRep.sizeof (var : ObjectRep) : Nat := var.bytes.length

/-! ## Faults of the embedding -/

/-- What can go wrong when the model of a loop is run. -/
inductive Fault where
  /-- A read `bytes[k]` with `k` outside the object. -/
  | outOfBounds (offset : Nat)
  /-- The fuel given to the loop was used up before its condition became false. -/
  | outOfFuel
  /-- Signed integer overflow. -/
  | signedOverflow
  deriving DecidableEq

/-! ## `std::stringstream` -/

/-- The `basefield` of a stream. -/
inductive BaseField where
  | dec
  | oct
  | hex
  deriving DecidableEq

/-- The numeric base a `basefield` selects. -/
def BaseField.radix : BaseField → Nat
  | .dec => 10
  | .oct => 8
  | .hex => 16

/-- The part of a `std::stringstream` the formatter uses: the characters written so
far and the formatting state (`basefield`, `width()`, `fill()`).  The `adjustfield`
is never changed by the code, so padding goes to the left of the text. -/
structure StringStream where
  buf : List Char
  basefield : BaseField
  width : Nat
  fill : Char
  deriving DecidableEq

namespace StringStream

/-- A default-constructed stream: `std::stringstream ss;`. -/
def init : StringStream :=
  { buf := [], basefield := .dec, width := 0, fill := ' ' }

/-- The manipulator `std::hex`. -/
def setHex (ss : StringStream) : StringStream := { ss with basefield := .hex }

/-- The manipulator `std::setw(n)`. -/
def setw (ss : StringStream) (n : Nat) : StringStream := { ss with width := n }

/-- The manipulator `std::setfill(c)`. -/
def setfill (ss : StringStream) (c : Char) : StringStream := { ss with fill := c }

/-- Padding of a field: the text is preceded by fill characters up to the width. -/
def pad (ss : StringStream) (text : List Char) : List Char :=
  List.replicate (ss.width - text.length) ss.fill ++ text

/-- Formatted output `ss << v` of a non-negative `int`: the digits of `v` in the
base of the stream (lowercase, no prefix), padded to the field width; the width is
reset to zero afterwards. -/
def putInt (ss : StringStream) (v : Nat) : StringStream :=
  { ss with buf := ss.buf ++ ss.pad (Nat.toDigits ss.basefield.radix v), width := 0 }

/-- Formatted output `ss << s` of a character string: padded to the field width;
the width is reset to zero afterwards. -/
def putStr (ss : StringStream) (s : String) : StringStream :=
  { ss with buf := ss.buf ++ ss.pad s.data, width := 0 }

/-- The member `ss.str()`. -/
def str (ss : StringStream) : String := String.mk ss.buf

end StringStream

/-! ## `std::bitset<8>` -/

/-- The member `std::bitset<8>(v).to_string()`: eight characters, the one at
position `j` showing bit `7 - j` of the value. -/
def bitset8_to_string (v : Nat) : String :=
  String.mk ((List.range 8).map fun j => if (v / 2 ^ (7 - j)) % 2 = 1 then '1' else '0')

/-- The object representation of a one-byte value, such as a `uint8_t`. -/
def ObjectRep.ofByte (v : Byte) : ObjectRep :=
  ⟨[v], by show 1 < SIZE_MOD; decide⟩

/-! ## The formatter of `foo.cpp` -/

/-- State of the loop of `get_hex_string`: the stream, and the record of the
offsets that were read (a ghost of the embedding). -/
structure HexState where
  ss : StringStream
  reads : List Nat
  deriving DecidableEq

/-- The loop `for (size_t i = 0; i < size; ++i)` of `get_hex_string`, from counter
value `i`. -/
def get_hex_string_loop (bytes : List Byte) (size : Nat) :
    Nat → Nat → HexState → Except Fault HexState
  | 0, _, _ => .error .outOfFuel
  | fuel + 1, i, st =>
    if i < size then
      let offset := size_sub (size_sub size 1) i
      match bytes[offset]? with
      | none => .error (.outOfBounds offset)
      | some byte =>
        let ss := ((st.ss.setHex.setw 2).setfill '0').putInt byte.val
        let ss := if i ≠ size_sub size 1 then ss.putStr " " else ss
        get_hex_string_loop bytes size fuel (size_inc i) ⟨ss, st.reads ++ [offset]⟩
    else .ok st

/-- The run of the loop of `get_hex_string` on a value, from a fresh stream.  The loop
tests its condition `size + 1` times at most, which is the fuel it is given. -/
def get_hex_string_run (var : ObjectRep) : Except Fault HexState :=
  get_hex_string_loop var.bytes var.sizeof (var.sizeof + 1) 0 ⟨StringStream.init, []⟩

/-- The function template `get_hex_string` of `foo.cpp`. -/
def get_hex_string (var : ObjectRep) : Except Fault String :=
  (get_hex_string_run var).map fun st => st.ss.str

/-- State of the loop of `get_binary_string`: the string built so far, and the
record of the offsets that were read (a ghost of the embedding). -/
structure BinState where
  binary_str : String
  reads : List Nat
  deriving DecidableEq

/-- The loop `for (size_t i = 0; i < size; ++i)` of `get_binary_string`, from
counter value `i`. -/
def get_binary_string_loop (bytes : List Byte) (size : Nat) :
    Nat → Nat → BinState → Except Fault BinState
  | 0, _, _ => .error .outOfFuel
  | fuel + 1, i, st =>
    if i < size then
      let offset := size_sub (size_sub size 1) i
      match bytes[offset]? with
      | none => .error (.outOfBounds offset)
      | some byte =>
        let binary_str := st.binary_str ++ bitset8_to_string byte.val
        let binary_str := if i ≠ size_sub size 1 then binary_str ++ " " else binary_str
        get_binary_string_loop bytes size fuel (size_inc i)
          ⟨binary_str, st.reads ++ [offset]⟩
    else .ok st

/-- The run of the loop of `get_binary_string` on a value, from the empty string.  The
loop tests its condition `size + 1` times at most, which is the fuel it is given. -/
def get_binary_string_run (var : ObjectRep) : Except Fault BinState :=
  get_binary_string_loop var.bytes var.sizeof (var.sizeof + 1) 0 ⟨"", []⟩

/-- The function template `get_binary_string` of `foo.cpp`. -/
def get_binary_string (var : ObjectRep) : Except Fault String :=
  (get_binary_string_run var).map fun st => st.binary_str

/-! ## The loop of `lane_detection.cpp` -/

/-- The least value of `int`. -/
def INT_MIN : Int := -(2 ^ 31)

/-- The greatest value of `int`. -/
def INT_MAX : Int := 2 ^ 31 - 1

/-- Subtraction of two `int` values; a result outside the type is undefined
behaviour and is reported as a fault. -/
def int_sub (a b : Int) : Except Fault Int :=
  if INT_MIN ≤ a - b ∧ a - b ≤ INT_MAX then .ok (a - b) else .error .signedOverflow

/-- Conversion of an `int` to `size_t`, as the usual arithmetic conversions apply it
to the right operand of `i < num_lane - 1`: the value modulo `2 ^ 64`. -/
def int_to_size_t (x : Int) : Nat := (x % (SIZE_MOD : Int)).toNat

/-- The function `get_num_lanes`. -/
def get_num_lanes : Int := 0

/-- What the loop of `main` has done so far: the values of `i` written to
`std::cout`, the accumulator `s`, and the number of calls of `rand()`.  The type `F`
stands for `float`, which the embedding does not interpret. -/
structure LaneState (F : Type) where
  out : List Nat
  s : F
  rand_calls : Nat

/-- The loop `for (size_t i = 0; i < num_lane - 1; i++)` of `main`, from counter
value `i`.  The function `plus_rand s k` is `s` after `s += rand()` for the `k`-th call of
`rand()`. -/
def lane_loop {F : Type} (plus_rand : F → Nat → F) (num_lane : Int) :
    Nat → Nat → LaneState F → Except Fault (LaneState F)
  | 0, _, _ => .error .outOfFuel
  | fuel + 1, i, st =>
    match int_sub num_lane 1 with
    | .error e => .error e
    | .ok bound =>
      if i < int_to_size_t bound then
        lane_loop plus_rand num_lane fuel (size_inc i)
          { out := st.out ++ [i], s := plus_rand st.s st.rand_calls,
            rand_calls := st.rand_calls + 1 }
      else .ok st

/-- The function `main` of `lane_detection.cpp` up to the end of its loop, run with
the given fuel; `zero` is the `float` value `0.f`. -/
def lane_main {F : Type} (zero : F) (plus_rand : F → Nat → F) (fuel : Nat) :
    Except Fault (LaneState F) :=
  let num_lane := get_num_lanes
  lane_loop plus_rand num_lane fuel 0 { out := [], s := zero, rand_calls := 0 }

/-! ## The formats the specification describes -/

/-- A lowercase hexadecimal digit, `0` to `9` then `a` to `f`. -/
def spec_hex_digit (d : Nat) : Char :=
  if d < 10 then Char.ofNat (48 + d) else Char.ofNat (87 + d)

/-- A byte as its two-digit lowercase hexadecimal value. -/
def spec_hex_group (v : Byte) : String :=
  String.mk [spec_hex_digit (v.val / 16), spec_hex_digit (v.val % 16)]

/-- The specification of `to_hex_string`: the bytes in reverse index order, each as its
two-digit group, the groups joined with a single space. -/
def spec_hex_string (b : List Byte) : String :=
  " ".intercalate (b.reverse.map spec_hex_group)

/-- A byte as eight binary digits, most significant bit first: character `j` is
`1` exactly when bit `7 - j` of the byte is set. -/
def spec_binary_group (v : Byte) : String :=
  String.mk (List.ofFn fun j : Fin 8 => if v.val.testBit (7 - j.val) then '1' else '0')

/-- The specification of `to_binary_string`: the bytes from the highest index down to
index `0`, each as its eight-digit group, the groups joined with a single space. -/
def spec_binary_string (b : List Byte) : String :=
  " ".intercalate (b.reverse.map spec_binary_group)

/-- The characters `0` to `9` and `a` to `f`. -/
def isLowerHexDigit (c : Char) : Bool :=
  ('0' ≤ c && c ≤ '9') || ('a' ≤ c && c ≤ 'f')

/-- The characters `0` and `1`. -/
def isBinaryDigit (c : Char) : Bool :=
  c = '0' || c = '1'

/-- Groups of `w` characters of the class `p` separated by single spaces: the language
of the pattern `(D{w} )*D{w}`, with the number of groups. -/
def MatchesGroups (w : Nat) (p : Char → Bool) (n : Nat) (s : List Char) : Prop :=
  ∃ groups : List (List Char), groups.length = n ∧ 1 ≤ n ∧
    (∀ g ∈ groups, g.length = w ∧ ∀ c ∈ g, p c = true) ∧
    s = List.intercalate [' '] groups

/-! ## Auxiliary definitions of the proofs -/

/-- The field `ss << std::hex << std::setw(2) << std::setfill('0') << v` appends. -/
def hex_field (v : Byte) : List Char :=
  List.replicate (2 - (Nat.toDigits 16 v.val).length) '0' ++ Nat.toDigits 16 v.val

/-- The field `binary_str += std::bitset<8>(v).to_string()` appends. -/
def bin_field (v : Byte) : List Char := (bitset8_to_string v.val).data

/-- The groups of a list of bytes, in the order of the list, a space between two
neighbours. -/
def joinGroups (f : Byte → List Char) : List Byte → List Char
  | [] => []
  | [x] => f x
  | x :: y :: rest => f x ++ ' ' :: joinGroups f (y :: rest)

/-! ## The member `name` of `Info` -/

/-- The constructor `Info::Info()` on the storage of the member `char name[10]`: the
assignment `name[10 - 1] = 0`; the other bytes stay as the storage held them. -/
def Info_ctor_name (name : List Byte) : List Byte := name.set (10 - 1) 0

/-! ## Reading a dump back -/

/-- The value of a digit character, `0` to `9` and `a` to `f`; other characters count
as zero. -/
def digit_value (c : Char) : Nat :=
  if '0' ≤ c ∧ c ≤ '9' then c.toNat - 48
  else if 'a' ≤ c ∧ c ≤ 'f' then c.toNat - 87
  else 0

/-- A group of digits read as a number in the given base, first digit most
significant. -/
def parse_digits (base : Nat) (g : List Char) : Nat :=
  g.foldl (fun acc c => base * acc + digit_value c) 0

/-- The groups of a dump: the text split at its spaces. -/
def dump_groups (s : String) : List (List Char) := s.data.splitOn ' '

/-- A hexadecimal dump read back: split at the spaces, every group read as a base-16
number, and the list reversed. -/
def hex_decode (s : String) : List Nat :=
  ((dump_groups s).map (parse_digits 16)).reverse

/-! ## Arithmetic of `size_t` -/

theorem SIZE_MOD_pos : 0 < SIZE_MOD := by
  unfold SIZE_MOD SIZE_WIDTH; decide

theorem size_sub_of_le {a b : Nat} (ha : a < SIZE_MOD) (hb : b ≤ a) :
    size_sub a b = a - b := by
  unfold size_sub
  have hb' : b % SIZE_MOD = b := Nat.mod_eq_of_lt (by omega)
  rw [hb']
  have h : a + (SIZE_MOD - b) = (a - b) + SIZE_MOD := by omega
  rw [h, Nat.add_mod_right]
  exact Nat.mod_eq_of_lt (by omega)

theorem size_sub_zero_one : size_sub 0 1 = SIZE_MOD - 1 := by
  unfold size_sub SIZE_MOD SIZE_WIDTH; decide

theorem size_inc_of_lt {i n : Nat} (hi : i < n) (hn : n < SIZE_MOD) :
    size_inc i = i + 1 := by
  unfold size_inc
  exact Nat.mod_eq_of_lt (by omega)

/-! ## Joined groups -/

theorem joinGroups_cons (f : Byte → List Char) (x : Byte) (l : List Byte) :
    joinGroups f (x :: l) = f x ++ (if l = [] then [] else ' ' :: joinGroups f l) := by
  cases l with
  | nil => simp [joinGroups]
  | cons y rest => simp [joinGroups]

theorem joinGroups_congr {f g : Byte → List Char} (h : ∀ v, f v = g v) (l : List Byte) :
    joinGroups f l = joinGroups g l := by
  have : f = g := funext h
  rw [this]

theorem joinGroups_eq_intercalate (f : Byte → List Char) (l : List Byte) :
    joinGroups f l = List.intercalate [' '] (l.map f) := by
  induction l with
  | nil => rfl
  | cons x l ih =>
    rw [joinGroups_cons, ih]
    cases l with
    | nil => simp [List.intercalate, List.intersperse]
    | cons y rest => simp [List.intercalate, List.intersperse]

theorem joinGroups_length (f : Byte → List Char) (w : Nat) (hw : ∀ v, (f v).length = w)
    (l : List Byte) : (joinGroups f l).length = (w + 1) * l.length - 1 := by
  induction l with
  | nil => simp [joinGroups]
  | cons x l ih =>
    rw [joinGroups_cons]
    cases l with
    | nil => simp [hw]
    | cons y rest =>
      simp only [reduceCtorEq, if_false, List.length_append, List.length_cons, hw, ih]
      have : (w + 1) * (rest.length + 1 + 1) = (w + 1) * (rest.length + 1) + (w + 1) :=
        Nat.mul_succ _ _
      have : 0 < (w + 1) * (rest.length + 1) := Nat.mul_pos (by omega) (by omega)
      omega

theorem joinGroups_getElem? (f : Byte → List Char) (w : Nat) (hw : ∀ v, (f v).length = w) :
    ∀ (l : List Byte) (q r : Nat) (hq : q < l.length), r ≤ w → (r = w → q + 1 < l.length) →
      (joinGroups f l)[(w + 1) * q + r]? = if r = w then some ' ' else (f l[q])[r]? := by
  intro l
  induction l with
  | nil => intro q r hq; simp at hq
  | cons x l ih =>
    intro q r hq hr hlast
    rw [joinGroups_cons]
    cases q with
    | zero =>
      simp only [Nat.mul_zero, Nat.zero_add, List.getElem_cons_zero]
      by_cases hrw : r = w
      · have hl : l ≠ [] := by
          intro h
          have := hlast hrw
          simp [h] at this
        rw [List.getElem?_append_right (by rw [hw]; omega)]
        simp [hl, hrw, hw]
      · rw [List.getElem?_append_left (by rw [hw]; omega)]
        simp [hrw]
    | succ q =>
      have hq' : q < l.length := by simpa using hq
      have hl : l ≠ [] := by
        intro h
        simp [h] at hq'
      have hidx : (w + 1) * (q + 1) + r - (f x).length = ((w + 1) * q + r) + 1 := by
        rw [hw, Nat.mul_succ]; omega
      rw [List.getElem?_append_right (by rw [hw, Nat.mul_succ]; omega), hidx]
      simp only [hl, if_false, List.getElem?_cons_succ, List.getElem_cons_succ]
      exact ih q r hq' hr (fun h => by have := hlast h; simp at this; omega)

theorem joinGroups_at (f : Byte → List Char) (w : Nat) (hw : ∀ v, (f v).length = w)
    (l : List Byte) (p : Nat) (hp : p < (w + 1) * l.length - 1) :
    ∃ hq : p / (w + 1) < l.length,
      (joinGroups f l)[p]?
        = if p % (w + 1) = w then some ' ' else (f l[p / (w + 1)])[p % (w + 1)]? := by
  have hq : p / (w + 1) < l.length := by
    rw [Nat.div_lt_iff_lt_mul (by omega), Nat.mul_comm]; omega
  have hr : p % (w + 1) < w + 1 := Nat.mod_lt _ (by omega)
  have hdm : (w + 1) * (p / (w + 1)) + p % (w + 1) = p := Nat.div_add_mod p (w + 1)
  refine ⟨hq, ?_⟩
  have hlast : p % (w + 1) = w → p / (w + 1) + 1 < l.length := by
    intro hrw
    have h1 : (w + 1) * (p / (w + 1) + 1) < (w + 1) * l.length := by
      rw [Nat.mul_succ]; omega
    exact Nat.lt_of_mul_lt_mul_left h1
  have := joinGroups_getElem? f w hw l (p / (w + 1)) (p % (w + 1)) hq (by omega) hlast
  rw [hdm] at this
  exact this

theorem joinGroups_char (f : Byte → List Char) (w : Nat) (hw : ∀ v, (f v).length = w)
    (cls : Char → Bool) (hcls : ∀ v, ∀ c ∈ f v, cls c = true)
    (l : List Byte) (p : Nat) (hp : p < (w + 1) * l.length - 1) :
    ∃ c, (joinGroups f l)[p]? = some c ∧
      (p % (w + 1) = w → c = ' ') ∧ (p % (w + 1) ≠ w → cls c = true) := by
  obtain ⟨hq, hat⟩ := joinGroups_at f w hw l p hp
  by_cases hrw : p % (w + 1) = w
  · exact ⟨' ', by rw [hat, if_pos hrw], fun _ => rfl, fun h => absurd hrw h⟩
  · have hr : p % (w + 1) < (f l[p / (w + 1)]).length := by
      rw [hw]
      have : p % (w + 1) < w + 1 := Nat.mod_lt _ (by omega)
      omega
    refine ⟨(f l[p / (w + 1)])[p % (w + 1)], ?_, fun h => absurd h hrw, fun _ => ?_⟩
    · rw [hat, if_neg hrw, List.getElem?_eq_getElem hr]
    · exact hcls _ _ (List.getElem_mem _)

theorem joinGroups_matches (f : Byte → List Char) (w : Nat) (hw : ∀ v, (f v).length = w)
    (cls : Char → Bool) (hcls : ∀ v, ∀ c ∈ f v, cls c = true)
    (l : List Byte) (hl : 1 ≤ l.length) :
    MatchesGroups w cls l.length (joinGroups f l) := by
  refine ⟨l.map f, by simp, hl, ?_, joinGroups_eq_intercalate f l⟩
  intro g hg
  obtain ⟨v, _, rfl⟩ := List.mem_map.mp hg
  exact ⟨hw v, hcls v⟩

theorem string_intercalate_go_data (acc sep : String) (l : List String) :
    (String.intercalate.go acc sep l).data
      = acc.data ++ (l.map fun a => sep.data ++ a.data).flatten := by
  induction l generalizing acc with
  | nil => simp [String.intercalate.go]
  | cons a l ih => simp [String.intercalate.go, ih, List.append_assoc]

theorem string_intercalate_data (g : Byte → String) (l : List Byte) :
    (" ".intercalate (l.map g)).data = joinGroups (fun v => (g v).data) l := by
  cases l with
  | nil => rfl
  | cons x l =>
    simp only [List.map_cons, String.intercalate, string_intercalate_go_data]
    induction l generalizing x with
    | nil => simp [joinGroups]
    | cons y rest ih =>
      rw [joinGroups_cons]
      simp only [List.map_cons, List.flatten_cons, reduceCtorEq, if_false]
      rw [← ih y]
      simp

/-! ## The loops of the formatter -/

theorem take_succ_reverse (b : List Byte) (k : Nat) (hk : k < b.length) :
    (b.take (k + 1)).reverse = b[k] :: (b.take k).reverse := by
  rw [List.take_succ, List.getElem?_eq_getElem hk]
  simp

theorem take_reverse_eq_nil_iff (b : List Byte) (k : Nat) (hk : k < b.length) :
    (b.take k).reverse = [] ↔ k = 0 := by
  cases b with
  | nil => simp at hk
  | cons x l => cases k <;> simp

theorem range_succ_reverse (k : Nat) :
    (List.range (k + 1)).reverse = k :: (List.range k).reverse := by
  rw [List.range_succ]; simp

theorem hex_emit (ss : StringStream) (v : Byte) :
    ((ss.setHex.setw 2).setfill '0').putInt v.val
      = { buf := ss.buf ++ hex_field v, basefield := .hex, width := 0, fill := '0' } := rfl

theorem hex_loop_run (b : List Byte) (hN : b.length < SIZE_MOD) :
    ∀ (k fuel i : Nat) (st : HexState), i + k = b.length → k < fuel →
      ∃ st', get_hex_string_loop b b.length fuel i st = .ok st' ∧
        st'.ss.buf = st.ss.buf ++ joinGroups hex_field (b.take k).reverse ∧
        st'.reads = st.reads ++ (List.range k).reverse := by
  intro k
  induction k with
  | zero =>
    intro fuel i st hi hf
    obtain ⟨f, rfl⟩ : ∃ f, fuel = f + 1 := ⟨fuel - 1, by omega⟩
    refine ⟨st, ?_, by simp [joinGroups], by simp⟩
    have : ¬ i < b.length := by omega
    simp [get_hex_string_loop, this]
  | succ k ih =>
    intro fuel i st hi hf
    obtain ⟨f, rfl⟩ : ∃ f, fuel = f + 1 := ⟨fuel - 1, by omega⟩
    have hlt : i < b.length := by omega
    have h1 : size_sub b.length 1 = b.length - 1 := size_sub_of_le hN (by omega)
    have h2 : size_sub (b.length - 1) i = k := by
      rw [size_sub_of_le (by omega) (by omega)]; omega
    have h3 : size_inc i = i + 1 := size_inc_of_lt hlt hN
    have hk : k < b.length := by omega
    have hsep : (i ≠ b.length - 1) ↔ ¬ (b.take k).reverse = [] := by
      rw [take_reverse_eq_nil_iff b k hk]; omega
    obtain ⟨st', hrun, hbuf, hreads⟩ := ih f (i + 1)
      ⟨if i ≠ b.length - 1 then
          (((st.ss.setHex.setw 2).setfill '0').putInt b[k].val).putStr " "
        else ((st.ss.setHex.setw 2).setfill '0').putInt b[k].val,
        st.reads ++ [k]⟩ (by omega) (by omega)
    refine ⟨st', ?_, ?_, ?_⟩
    · rw [get_hex_string_loop]
      simp only [hlt, if_true, h1, h2, h3, List.getElem?_eq_getElem hk]
      exact hrun
    · rw [hbuf, take_succ_reverse b k hk, joinGroups_cons]
      by_cases hnil : (b.take k).reverse = []
      · have : ¬ (i ≠ b.length - 1) := fun h => (hsep.mp h) hnil
        simp [this, hnil, hex_emit, joinGroups]
      · have : i ≠ b.length - 1 := hsep.mpr hnil
        simp [this, hnil, hex_emit, StringStream.putStr, StringStream.pad]
    · rw [hreads, range_succ_reverse]; simp

theorem hex_run_ok (var : ObjectRep) :
    ∃ st, get_hex_string_run var = .ok st ∧
      st.ss.buf = joinGroups hex_field var.bytes.reverse ∧
      st.reads = (List.range var.sizeof).reverse := by
  obtain ⟨st, h, hb, hr⟩ := hex_loop_run var.bytes var.size_fits var.bytes.length
    (var.bytes.length + 1) 0 ⟨StringStream.init, []⟩ (by simp) (by omega)
  refine ⟨st, h, ?_, ?_⟩
  · simpa [StringStream.init] using hb
  · simpa [ObjectRep.sizeof] using hr

theorem get_hex_string_eq (var : ObjectRep) :
    get_hex_string var = .ok (String.mk (joinGroups hex_field var.bytes.reverse)) := by
  obtain ⟨st, h, hb, _⟩ := hex_run_ok var
  simp [get_hex_string, h, Except.map, StringStream.str, hb]

theorem bin_loop_run (b : List Byte) (hN : b.length < SIZE_MOD) :
    ∀ (k fuel i : Nat) (st : BinState), i + k = b.length → k < fuel →
      ∃ st', get_binary_string_loop b b.length fuel i st = .ok st' ∧
        st'.binary_str.data = st.binary_str.data ++ joinGroups bin_field (b.take k).reverse ∧
        st'.reads = st.reads ++ (List.range k).reverse := by
  intro k
  induction k with
  | zero =>
    intro fuel i st hi hf
    obtain ⟨f, rfl⟩ : ∃ f, fuel = f + 1 := ⟨fuel - 1, by omega⟩
    refine ⟨st, ?_, by simp [joinGroups], by simp⟩
    have : ¬ i < b.length := by omega
    simp [get_binary_string_loop, this]
  | succ k ih =>
    intro fuel i st hi hf
    obtain ⟨f, rfl⟩ : ∃ f, fuel = f + 1 := ⟨fuel - 1, by omega⟩
    have hlt : i < b.length := by omega
    have h1 : size_sub b.length 1 = b.length - 1 := size_sub_of_le hN (by omega)
    have h2 : size_sub (b.length - 1) i = k := by
      rw [size_sub_of_le (by omega) (by omega)]; omega
    have h3 : size_inc i = i + 1 := size_inc_of_lt hlt hN
    have hk : k < b.length := by omega
    have hsep : (i ≠ b.length - 1) ↔ ¬ (b.take k).reverse = [] := by
      rw [take_reverse_eq_nil_iff b k hk]; omega
    obtain ⟨st', hrun, hbuf, hreads⟩ := ih f (i + 1)
      ⟨if i ≠ b.length - 1 then
          st.binary_str ++ bitset8_to_string b[k].val ++ " "
        else st.binary_str ++ bitset8_to_string b[k].val,
        st.reads ++ [k]⟩ (by omega) (by omega)
    refine ⟨st', ?_, ?_, ?_⟩
    · rw [get_binary_string_loop]
      simp only [hlt, if_true, h1, h2, h3, List.getElem?_eq_getElem hk]
      exact hrun
    · rw [hbuf, take_succ_reverse b k hk, joinGroups_cons]
      by_cases hnil : (b.take k).reverse = []
      · have : ¬ (i ≠ b.length - 1) := fun h => (hsep.mp h) hnil
        simp [this, hnil, bin_field, joinGroups]
      · have : i ≠ b.length - 1 := hsep.mpr hnil
        simp [this, hnil, bin_field]
    · rw [hreads, range_succ_reverse]; simp

theorem bin_run_ok (var : ObjectRep) :
    ∃ st, get_binary_string_run var = .ok st ∧
      st.binary_str.data = joinGroups bin_field var.bytes.reverse ∧
      st.reads = (List.range var.sizeof).reverse := by
  obtain ⟨st, h, hb, hr⟩ := bin_loop_run var.bytes var.size_fits var.bytes.length
    (var.bytes.length + 1) 0 ⟨"", []⟩ (by simp) (by omega)
  refine ⟨st, h, ?_, ?_⟩
  · simpa using hb
  · simpa [ObjectRep.sizeof] using hr

theorem get_binary_string_eq (var : ObjectRep) :
    get_binary_string var = .ok (String.mk (joinGroups bin_field var.bytes.reverse)) := by
  obtain ⟨st, h, hb, _⟩ := bin_run_ok var
  simp only [get_binary_string, h, Except.map]
  congr 1
  exact String.ext hb

/-! ## The fields of one byte -/

set_option maxRecDepth 100000 in
theorem hex_field_eq_spec : ∀ v : Byte, hex_field v = (spec_hex_group v).data := by
  decide

set_option maxRecDepth 100000 in
theorem bin_field_eq_spec : ∀ v : Byte, bin_field v = (spec_binary_group v).data := by
  decide

set_option maxRecDepth 100000 in
theorem hex_field_length : ∀ v : Byte, (hex_field v).length = 2 := by
  decide

set_option maxRecDepth 100000 in
theorem hex_field_class : ∀ v : Byte, ∀ c ∈ hex_field v, isLowerHexDigit c = true := by
  decide

set_option maxRecDepth 100000 in
theorem bin_field_length : ∀ v : Byte, (bin_field v).length = 8 := by
  decide

set_option maxRecDepth 100000 in
theorem bin_field_class : ∀ v : Byte, ∀ c ∈ bin_field v, isBinaryDigit c = true := by
  decide

/-! ## The formatter against its specification -/

/-- C1: for every value of at least one byte, `get_hex_string` returns the bytes in
reverse index order, each as its two-digit lowercase hexadecimal group, joined with
single spaces; the bytes `[0x34, 0x12]` give `"12 34"` and the bytes
`[0x78, 0x56, 0x34, 0x12]` give `"12 34 56 78"`. -/
theorem get_hex_string_refines_spec :
    (∀ var : ObjectRep, 1 ≤ var.sizeof →
      get_hex_string var = .ok (spec_hex_string var.bytes)) ∧
    get_hex_string ⟨[0x34, 0x12], by decide⟩ = .ok "12 34" ∧
    get_hex_string ⟨[0x78, 0x56, 0x34, 0x12], by decide⟩ = .ok "12 34 56 78" := by
  refine ⟨?_, rfl, rfl⟩
  intro var _
  rw [get_hex_string_eq]
  congr 1
  apply String.ext
  rw [spec_hex_string, string_intercalate_data]
  exact joinGroups_congr hex_field_eq_spec _

theorem get_hex_string_refines_spec_witness :
    1 ≤ ObjectRep.sizeof ⟨[0xef, 0xbe, 0xad, 0xde], by decide⟩ ∧
    get_hex_string ⟨[0xef, 0xbe, 0xad, 0xde], by decide⟩
      = .ok (spec_hex_string [0xef, 0xbe, 0xad, 0xde]) :=
  ⟨by decide, get_hex_string_refines_spec.1 ⟨[0xef, 0xbe, 0xad, 0xde], by decide⟩ (by decide)⟩

/-- C2: for every value of at least one byte, `get_binary_string` returns the bytes
from the highest index down to index `0`, each as eight binary digits with the most
significant bit first, joined with single spaces, and the result neither starts nor
ends with a separator. -/
theorem get_binary_string_refines_spec (var : ObjectRep) (h : 1 ≤ var.sizeof) :
    get_binary_string var = .ok (spec_binary_string var.bytes) ∧
    (spec_binary_string var.bytes).data.head? ≠ some ' ' ∧
    (spec_binary_string var.bytes).data.getLast? ≠ some ' ' := by
  have hdata : (spec_binary_string var.bytes).data = joinGroups bin_field var.bytes.reverse := by
    rw [spec_binary_string, string_intercalate_data]
    exact (joinGroups_congr bin_field_eq_spec _).symm
  have hN : 1 ≤ var.bytes.reverse.length := by simpa [ObjectRep.sizeof] using h
  have hlen := joinGroups_length bin_field 8 bin_field_length var.bytes.reverse
  refine ⟨?_, ?_, ?_⟩
  · rw [get_binary_string_eq]
    congr 1
    exact String.ext hdata.symm
  · rw [hdata, List.head?_eq_getElem?]
    obtain ⟨c, hc, _, hcls⟩ := joinGroups_char bin_field 8 bin_field_length isBinaryDigit
      bin_field_class var.bytes.reverse 0 (by omega)
    rw [hc]
    intro heq
    have hsp : c = ' ' := by simpa using heq
    have := hcls (by decide)
    rw [hsp] at this
    exact absurd this (by decide)
  · rw [hdata, List.getLast?_eq_getElem?, hlen]
    obtain ⟨c, hc, _, hcls⟩ := joinGroups_char bin_field 8 bin_field_length isBinaryDigit
      bin_field_class var.bytes.reverse ((8 + 1) * var.bytes.reverse.length - 1 - 1) (by omega)
    rw [hc]
    intro heq
    have hsp : c = ' ' := by simpa using heq
    have := hcls (by omega)
    rw [hsp] at this
    exact absurd this (by decide)

theorem get_binary_string_refines_spec_witness :
    1 ≤ ObjectRep.sizeof ⟨[0x05, 0x81], by decide⟩ ∧
    get_binary_string ⟨[0x05, 0x81], by decide⟩ = .ok (spec_binary_string [0x05, 0x81]) ∧
    (spec_binary_string [0x05, 0x81]).data.head? ≠ some ' ' ∧
    (spec_binary_string [0x05, 0x81]).data.getLast? ≠ some ' ' :=
  ⟨by decide, get_binary_string_refines_spec ⟨[0x05, 0x81], by decide⟩ (by decide)⟩

/-- C3: for every value of `N ≥ 1` bytes, the output of `get_hex_string` has length
`3N - 1`, consists of `N` groups of two lowercase hexadecimal digits separated by single
spaces, and has a space exactly at the positions `3k + 2` with `k < N - 1`. -/
theorem get_hex_string_shape (var : ObjectRep) (h : 1 ≤ var.sizeof) :
    ∃ s, get_hex_string var = .ok s ∧
      s.length = 3 * var.sizeof - 1 ∧
      MatchesGroups 2 isLowerHexDigit var.sizeof s.data ∧
      ∀ p, p < 3 * var.sizeof - 1 → ∃ c, s.data[p]? = some c ∧
        (c = ' ' ↔ ∃ k, k < var.sizeof - 1 ∧ p = 3 * k + 2) ∧
        (c ≠ ' ' → isLowerHexDigit c = true) := by
  have hN : var.bytes.reverse.length = var.sizeof := by simp [ObjectRep.sizeof]
  have hlen := joinGroups_length hex_field 2 hex_field_length var.bytes.reverse
  rw [hN] at hlen
  refine ⟨_, get_hex_string_eq var, ?_, ?_, ?_⟩
  · simpa [String.length] using hlen
  · have := joinGroups_matches hex_field 2 hex_field_length isLowerHexDigit hex_field_class
      var.bytes.reverse (by omega)
    rwa [hN] at this
  · intro p hp
    obtain ⟨c, hc, hsp, hcls⟩ := joinGroups_char hex_field 2 hex_field_length isLowerHexDigit
      hex_field_class var.bytes.reverse p (by rw [hN]; omega)
    refine ⟨c, hc, ⟨?_, ?_⟩, ?_⟩
    · intro hcs
      have hmod : p % 3 = 2 := by
        by_contra hne
        have := hcls hne
        rw [hcs] at this
        exact absurd this (by decide)
      exact ⟨p / 3, by omega, by omega⟩
    · rintro ⟨k, _, rfl⟩
      exact hsp (by omega)
    · intro hne
      exact hcls (fun hmod => hne (hsp hmod))

theorem get_hex_string_shape_witness :
    1 ≤ ObjectRep.sizeof ⟨[0x78, 0x56, 0x34, 0x12], by decide⟩ ∧
    ∃ s, get_hex_string ⟨[0x78, 0x56, 0x34, 0x12], by decide⟩ = .ok s ∧
      s.length = 3 * ObjectRep.sizeof ⟨[0x78, 0x56, 0x34, 0x12], by decide⟩ - 1 ∧
      MatchesGroups 2 isLowerHexDigit (ObjectRep.sizeof ⟨[0x78, 0x56, 0x34, 0x12], by decide⟩)
        s.data ∧
      ∀ p, p < 3 * ObjectRep.sizeof ⟨[0x78, 0x56, 0x34, 0x12], by decide⟩ - 1 →
        ∃ c, s.data[p]? = some c ∧
          (c = ' ' ↔ ∃ k, k < ObjectRep.sizeof ⟨[0x78, 0x56, 0x34, 0x12], by decide⟩ - 1 ∧
            p = 3 * k + 2) ∧
          (c ≠ ' ' → isLowerHexDigit c = true) :=
  ⟨by decide, get_hex_string_shape ⟨[0x78, 0x56, 0x34, 0x12], by decide⟩ (by decide)⟩

/-- C4: for every value of `N ≥ 1` bytes, the output of `get_binary_string` has length
`9N - 1 = 8N + (N - 1)`, consists of `N` groups of eight characters `0` or `1` separated
by single spaces, and has a space exactly at the positions `9k + 8` with `k < N - 1`. -/
theorem get_binary_string_shape (var : ObjectRep) (h : 1 ≤ var.sizeof) :
    ∃ s, get_binary_string var = .ok s ∧
      s.length = 9 * var.sizeof - 1 ∧
      s.length = 8 * var.sizeof + (var.sizeof - 1) ∧
      MatchesGroups 8 isBinaryDigit var.sizeof s.data ∧
      ∀ p, p < 9 * var.sizeof - 1 → ∃ c, s.data[p]? = some c ∧
        (c = ' ' ↔ ∃ k, k < var.sizeof - 1 ∧ p = 9 * k + 8) ∧
        (c ≠ ' ' → isBinaryDigit c = true) := by
  have hN : var.bytes.reverse.length = var.sizeof := by simp [ObjectRep.sizeof]
  have hlen := joinGroups_length bin_field 8 bin_field_length var.bytes.reverse
  rw [hN] at hlen
  have hlen' : (String.mk (joinGroups bin_field var.bytes.reverse)).length
      = 9 * var.sizeof - 1 := by
    simpa [String.length] using hlen
  refine ⟨_, get_binary_string_eq var, hlen', ?_, ?_, ?_⟩
  · rw [hlen']; omega
  · have := joinGroups_matches bin_field 8 bin_field_length isBinaryDigit bin_field_class
      var.bytes.reverse (by omega)
    rwa [hN] at this
  · intro p hp
    obtain ⟨c, hc, hsp, hcls⟩ := joinGroups_char bin_field 8 bin_field_length isBinaryDigit
      bin_field_class var.bytes.reverse p (by rw [hN]; omega)
    refine ⟨c, hc, ⟨?_, ?_⟩, ?_⟩
    · intro hcs
      have hmod : p % 9 = 8 := by
        by_contra hne
        have := hcls hne
        rw [hcs] at this
        exact absurd this (by decide)
      exact ⟨p / 9, by omega, by omega⟩
    · rintro ⟨k, _, rfl⟩
      exact hsp (by omega)
    · intro hne
      exact hcls (fun hmod => hne (hsp hmod))

theorem get_binary_string_shape_witness :
    1 ≤ ObjectRep.sizeof ⟨[0x34, 0x12], by decide⟩ ∧
    ∃ s, get_binary_string ⟨[0x34, 0x12], by decide⟩ = .ok s ∧
      s.length = 9 * ObjectRep.sizeof ⟨[0x34, 0x12], by decide⟩ - 1 ∧
      s.length = 8 * ObjectRep.sizeof ⟨[0x34, 0x12], by decide⟩
        + (ObjectRep.sizeof ⟨[0x34, 0x12], by decide⟩ - 1) ∧
      MatchesGroups 8 isBinaryDigit (ObjectRep.sizeof ⟨[0x34, 0x12], by decide⟩) s.data ∧
      ∀ p, p < 9 * ObjectRep.sizeof ⟨[0x34, 0x12], by decide⟩ - 1 →
        ∃ c, s.data[p]? = some c ∧
          (c = ' ' ↔ ∃ k, k < ObjectRep.sizeof ⟨[0x34, 0x12], by decide⟩ - 1 ∧
            p = 9 * k + 8) ∧
          (c ≠ ' ' → isBinaryDigit c = true) :=
  ⟨by decide, get_binary_string_shape ⟨[0x34, 0x12], by decide⟩ (by decide)⟩

set_option maxRecDepth 100000 in
theorem hex_field_head : ∀ v : Byte, v.val < 16 → (hex_field v).head? = some '0' := by
  decide

theorem sizeof_one_eq (var : ObjectRep) (h : var.sizeof = 1) :
    ∃ v, var.bytes = [v] := by
  have hl : var.bytes.length = 1 := h
  match hb : var.bytes, hl with
  | [v], _ => exact ⟨v, rfl⟩

theorem get_hex_string_one (var : ObjectRep) (v : Byte) (h : var.bytes = [v]) :
    get_hex_string var = .ok (String.mk (hex_field v)) := by
  rw [get_hex_string_eq, h]; rfl

theorem get_binary_string_one (var : ObjectRep) (v : Byte) (h : var.bytes = [v]) :
    get_binary_string var = .ok (String.mk (bin_field v)) := by
  rw [get_binary_string_eq, h]; rfl

/-- C5: zero padding.  Whatever the state of the stream, the hexadecimal field written
for a byte is its two digits, the first being `0` for a value below 16; the binary
field has eight characters; a one-byte value is printed as a group of 2 and of 8
characters; the byte 5 gives `"05"` and `"00000101"`, not `"5"` or `"101"`. -/
theorem zero_padding :
    (∀ (ss : StringStream) (v : Byte),
      (((ss.setHex.setw 2).setfill '0').putInt v.val).buf
        = ss.buf ++ (spec_hex_group v).data ∧
      (spec_hex_group v).length = 2 ∧
      (v.val < 16 → (spec_hex_group v).data.head? = some '0')) ∧
    (∀ v : Byte, bitset8_to_string v.val = spec_binary_group v ∧
      (bitset8_to_string v.val).length = 8) ∧
    (∀ v : Byte, ∃ h b, get_hex_string (ObjectRep.ofByte v) = .ok h ∧
      get_binary_string (ObjectRep.ofByte v) = .ok b ∧ h.length = 2 ∧ b.length = 8 ∧
      (v.val < 16 → h.data.head? = some '0')) ∧
    get_hex_string (ObjectRep.ofByte 5) = .ok "05" ∧
    get_binary_string (ObjectRep.ofByte 5) = .ok "00000101" ∧
    get_hex_string (ObjectRep.ofByte 5) ≠ .ok "5" ∧
    get_binary_string (ObjectRep.ofByte 5) ≠ .ok "101" := by
  refine ⟨?_, ?_, ?_, rfl, rfl, ?_, ?_⟩
  · intro ss v
    refine ⟨?_, rfl, ?_⟩
    · rw [hex_emit, hex_field_eq_spec]
    · rw [← hex_field_eq_spec]; exact hex_field_head v
  · intro v
    have h := bin_field_eq_spec v
    have hl := bin_field_length v
    exact ⟨String.ext h, hl⟩
  · intro v
    refine ⟨_, _, get_hex_string_one _ v rfl, get_binary_string_one _ v rfl, ?_, ?_, ?_⟩
    · simpa [String.length] using hex_field_length v
    · simpa [String.length] using bin_field_length v
    · exact hex_field_head v
  · intro h
    have h2 : get_hex_string (ObjectRep.ofByte 5) = .ok "05" := rfl
    rw [h2] at h
    exact absurd (Except.ok.inj h) (by decide)
  · intro h
    have h2 : get_binary_string (ObjectRep.ofByte 5) = .ok "00000101" := rfl
    rw [h2] at h
    exact absurd (Except.ok.inj h) (by decide)

theorem zero_padding_witness :
    (7 : Byte).val < 16 ∧ (spec_hex_group 7).data.head? = some '0' :=
  ⟨by decide, (zero_padding.1 StringStream.init 7).2.2 (by decide)⟩

/-- C6: for every one-byte value the outputs of `get_hex_string` and of
`get_binary_string` contain no space and have length 2 and 8; the byte `0xff` gives
`"ff"`. -/
theorem one_byte_no_separator :
    (∀ var : ObjectRep, var.sizeof = 1 →
      ∃ h b, get_hex_string var = .ok h ∧ get_binary_string var = .ok b ∧
        ' ' ∉ h.data ∧ ' ' ∉ b.data ∧ h.length = 2 ∧ b.length = 8) ∧
    get_hex_string (ObjectRep.ofByte 0xff) = .ok "ff" := by
  refine ⟨?_, rfl⟩
  intro var hsz
  obtain ⟨v, hv⟩ := sizeof_one_eq var hsz
  refine ⟨_, _, get_hex_string_one var v hv, get_binary_string_one var v hv, ?_, ?_, ?_, ?_⟩
  · intro hmem
    exact absurd (hex_field_class v _ hmem) (by decide)
  · intro hmem
    exact absurd (bin_field_class v _ hmem) (by decide)
  · simpa [String.length] using hex_field_length v
  · simpa [String.length] using bin_field_length v

theorem one_byte_no_separator_witness :
    (ObjectRep.ofByte 0x20).sizeof = 1 ∧
    ∃ h b, get_hex_string (ObjectRep.ofByte 0x20) = .ok h ∧
      get_binary_string (ObjectRep.ofByte 0x20) = .ok b ∧
      ' ' ∉ h.data ∧ ' ' ∉ b.data ∧ h.length = 2 ∧ b.length = 8 :=
  ⟨rfl, one_byte_no_separator.1 (ObjectRep.ofByte 0x20) rfl⟩

/-! ## Totality and bounds of the reads -/

theorem range_reverse_eq_map (n : Nat) :
    (List.range n).reverse = (List.range n).map fun i => n - 1 - i := by
  rw [List.range_eq_range', List.reverse_range']
  simp [List.range_eq_range']

theorem hex_loop_short (b : List Byte) (hN : b.length < SIZE_MOD) :
    ∀ (fuel k i : Nat) (st : HexState), i + k = b.length → fuel ≤ k →
      get_hex_string_loop b b.length fuel i st = .error .outOfFuel := by
  intro fuel
  induction fuel with
  | zero => intro k i st _ _; rfl
  | succ f ih =>
    intro k i st hi hf
    have hlt : i < b.length := by omega
    have h1 : size_sub b.length 1 = b.length - 1 := size_sub_of_le hN (by omega)
    have h2 : size_sub (b.length - 1) i = b.length - 1 - i :=
      size_sub_of_le (by omega) (by omega)
    have h3 : size_inc i = i + 1 := size_inc_of_lt hlt hN
    have hk : b.length - 1 - i < b.length := by omega
    rw [get_hex_string_loop]
    simp only [hlt, if_true, h1, h2, h3, List.getElem?_eq_getElem hk]
    exact ih (k - 1) (i + 1) _ (by omega) (by omega)

theorem bin_loop_short (b : List Byte) (hN : b.length < SIZE_MOD) :
    ∀ (fuel k i : Nat) (st : BinState), i + k = b.length → fuel ≤ k →
      get_binary_string_loop b b.length fuel i st = .error .outOfFuel := by
  intro fuel
  induction fuel with
  | zero => intro k i st _ _; rfl
  | succ f ih =>
    intro k i st hi hf
    have hlt : i < b.length := by omega
    have h1 : size_sub b.length 1 = b.length - 1 := size_sub_of_le hN (by omega)
    have h2 : size_sub (b.length - 1) i = b.length - 1 - i :=
      size_sub_of_le (by omega) (by omega)
    have h3 : size_inc i = i + 1 := size_inc_of_lt hlt hN
    have hk : b.length - 1 - i < b.length := by omega
    rw [get_binary_string_loop]
    simp only [hlt, if_true, h1, h2, h3, List.getElem?_eq_getElem hk]
    exact ih (k - 1) (i + 1) _ (by omega) (by omega)

/-- C7: for every value of `N ≥ 1` bytes and every loop index `i < N`, the offset
`size - 1 - i` is computed without wrap-around and lies in `[0, N)`, so the read
succeeds; both functions return a string, having read exactly the offsets
`N - 1, ..., 0`; with any fuel above `N` the loops finish, and with no fuel at all does
a loop end in an out-of-bounds read. -/
theorem formatter_total_in_bounds (var : ObjectRep) (h : 1 ≤ var.sizeof) :
    (∀ i, i < var.sizeof →
      ((size_sub (size_sub var.sizeof 1) i : Nat) : Int)
        = (var.sizeof : Int) - 1 - (i : Int) ∧
      size_sub (size_sub var.sizeof 1) i < var.sizeof ∧
      (var.bytes[size_sub (size_sub var.sizeof 1) i]?).isSome = true) ∧
    (∃ st s, get_hex_string_run var = .ok st ∧ get_hex_string var = .ok s ∧
      st.reads = (List.range var.sizeof).map (fun i => var.sizeof - 1 - i) ∧
      ∀ o ∈ st.reads, o < var.sizeof) ∧
    (∃ st s, get_binary_string_run var = .ok st ∧ get_binary_string var = .ok s ∧
      st.reads = (List.range var.sizeof).map (fun i => var.sizeof - 1 - i) ∧
      ∀ o ∈ st.reads, o < var.sizeof) ∧
    (∀ fuel hst bst, var.sizeof < fuel →
      (∃ st, get_hex_string_loop var.bytes var.sizeof fuel 0 hst = .ok st) ∧
      (∃ st, get_binary_string_loop var.bytes var.sizeof fuel 0 bst = .ok st)) ∧
    (∀ fuel st0 o,
      get_hex_string_loop var.bytes var.sizeof fuel 0 st0 ≠ .error (.outOfBounds o)) ∧
    (∀ fuel st0 o,
      get_binary_string_loop var.bytes var.sizeof fuel 0 st0 ≠ .error (.outOfBounds o)) := by
  have hfit : var.sizeof < SIZE_MOD := var.size_fits
  have hmem : ∀ o ∈ (List.range var.sizeof).map (fun i => var.sizeof - 1 - i),
      o < var.sizeof := by
    intro o ho
    obtain ⟨i, hi, rfl⟩ := List.mem_map.mp ho
    have := List.mem_range.mp hi
    omega
  refine ⟨?_, ?_, ?_, ?_, ?_, ?_⟩
  · intro i hi
    have h1 : size_sub var.sizeof 1 = var.sizeof - 1 := size_sub_of_le hfit (by omega)
    have h2 : size_sub (var.sizeof - 1) i = var.sizeof - 1 - i :=
      size_sub_of_le (by omega) (by omega)
    have hk : var.sizeof - 1 - i < var.bytes.length := by
      show var.sizeof - 1 - i < var.sizeof
      omega
    rw [h1, h2]
    refine ⟨by omega, hk, ?_⟩
    rw [List.getElem?_eq_getElem hk]; rfl
  · obtain ⟨st, hrun, _, hreads⟩ := hex_run_ok var
    refine ⟨st, _, hrun, get_hex_string_eq var, ?_, ?_⟩
    · rw [hreads, range_reverse_eq_map]
    · rw [hreads, range_reverse_eq_map]; exact hmem
  · obtain ⟨st, hrun, _, hreads⟩ := bin_run_ok var
    refine ⟨st, _, hrun, get_binary_string_eq var, ?_, ?_⟩
    · rw [hreads, range_reverse_eq_map]
    · rw [hreads, range_reverse_eq_map]; exact hmem
  · intro fuel hst bst hfuel
    obtain ⟨st, hrun, _⟩ := hex_loop_run var.bytes var.size_fits var.bytes.length fuel 0 hst
      (by simp) hfuel
    obtain ⟨st2, hrun2, _⟩ := bin_loop_run var.bytes var.size_fits var.bytes.length fuel 0 bst
      (by simp) hfuel
    exact ⟨⟨st, hrun⟩, ⟨st2, hrun2⟩⟩
  · intro fuel st0 o
    by_cases hfuel : var.sizeof < fuel
    · obtain ⟨st, hrun, _⟩ := hex_loop_run var.bytes var.size_fits var.bytes.length fuel 0
        st0 (by simp) hfuel
      show get_hex_string_loop var.bytes var.bytes.length fuel 0 st0 ≠ _
      rw [hrun]; simp
    · have hrun := hex_loop_short var.bytes var.size_fits fuel var.bytes.length 0 st0
        (by simp) (by have : var.bytes.length = var.sizeof := rfl; omega)
      show get_hex_string_loop var.bytes var.bytes.length fuel 0 st0 ≠ _
      rw [hrun]; simp
  · intro fuel st0 o
    by_cases hfuel : var.sizeof < fuel
    · obtain ⟨st, hrun, _⟩ := bin_loop_run var.bytes var.size_fits var.bytes.length fuel 0
        st0 (by simp) hfuel
      show get_binary_string_loop var.bytes var.bytes.length fuel 0 st0 ≠ _
      rw [hrun]; simp
    · have hrun := bin_loop_short var.bytes var.size_fits fuel var.bytes.length 0 st0
        (by simp) (by have : var.bytes.length = var.sizeof := rfl; omega)
      show get_binary_string_loop var.bytes var.bytes.length fuel 0 st0 ≠ _
      rw [hrun]; simp

theorem formatter_total_in_bounds_witness :
    1 ≤ ObjectRep.sizeof ⟨[0x78, 0x56, 0x34, 0x12], by decide⟩ ∧
    ∃ st s, get_hex_string_run ⟨[0x78, 0x56, 0x34, 0x12], by decide⟩ = .ok st ∧
      get_hex_string ⟨[0x78, 0x56, 0x34, 0x12], by decide⟩ = .ok s ∧
      st.reads = (List.range (ObjectRep.sizeof ⟨[0x78, 0x56, 0x34, 0x12], by decide⟩)).map
        (fun i => ObjectRep.sizeof ⟨[0x78, 0x56, 0x34, 0x12], by decide⟩ - 1 - i) ∧
      ∀ o ∈ st.reads, o < ObjectRep.sizeof ⟨[0x78, 0x56, 0x34, 0x12], by decide⟩ :=
  ⟨by decide,
    (formatter_total_in_bounds ⟨[0x78, 0x56, 0x34, 0x12], by decide⟩ (by decide)).2.1⟩

/-! ## Purity -/

/-- C8: the results of `get_hex_string` and of `get_binary_string` are determined by
the bytes of the value; and no formatting state is carried over: the field written for
a byte is the same whatever the base, width and fill character of the stream before,
and the loop started on a stream in any state, or on any string, appends exactly the
string the function returns. -/
theorem formatter_pure :
    (∀ a b : ObjectRep, a.bytes = b.bytes →
      get_hex_string a = get_hex_string b ∧ get_binary_string a = get_binary_string b) ∧
    (∀ (ss ss' : StringStream) (v : Byte), ∃ g : List Char,
      (((ss.setHex.setw 2).setfill '0').putInt v.val).buf = ss.buf ++ g ∧
      (((ss'.setHex.setw 2).setfill '0').putInt v.val).buf = ss'.buf ++ g) ∧
    (∀ (var : ObjectRep) (ss : StringStream) (reads : List Nat), ∃ st s,
      get_hex_string_loop var.bytes var.sizeof (var.sizeof + 1) 0 ⟨ss, reads⟩ = .ok st ∧
      get_hex_string var = .ok s ∧ st.ss.buf = ss.buf ++ s.data) ∧
    (∀ (var : ObjectRep) (pre : String) (reads : List Nat), ∃ st s,
      get_binary_string_loop var.bytes var.sizeof (var.sizeof + 1) 0 ⟨pre, reads⟩ = .ok st ∧
      get_binary_string var = .ok s ∧ st.binary_str = pre ++ s) := by
  refine ⟨?_, ?_, ?_, ?_⟩
  · intro a b hab
    rw [get_hex_string_eq, get_hex_string_eq, get_binary_string_eq, get_binary_string_eq, hab]
    exact ⟨rfl, rfl⟩
  · intro ss ss' v
    exact ⟨hex_field v, by rw [hex_emit], by rw [hex_emit]⟩
  · intro var ss reads
    obtain ⟨st, hrun, hbuf, _⟩ := hex_loop_run var.bytes var.size_fits var.bytes.length
      (var.bytes.length + 1) 0 ⟨ss, reads⟩ (by simp) (by omega)
    refine ⟨st, _, hrun, get_hex_string_eq var, ?_⟩
    simpa using hbuf
  · intro var pre reads
    obtain ⟨st, hrun, hbuf, _⟩ := bin_loop_run var.bytes var.size_fits var.bytes.length
      (var.bytes.length + 1) 0 ⟨pre, reads⟩ (by simp) (by omega)
    refine ⟨st, _, hrun, get_binary_string_eq var, ?_⟩
    apply String.ext
    simpa using hbuf

theorem formatter_pure_witness :
    (ObjectRep.ofByte 0x2a).bytes = (ObjectRep.mk [0x2a] (by decide)).bytes ∧
    get_hex_string (ObjectRep.ofByte 0x2a) = get_hex_string ⟨[0x2a], by decide⟩ ∧
    get_binary_string (ObjectRep.ofByte 0x2a) = get_binary_string ⟨[0x2a], by decide⟩ :=
  ⟨rfl, formatter_pure.1 (ObjectRep.ofByte 0x2a) ⟨[0x2a], by decide⟩ rfl⟩

/-! ## A value of no bytes -/

/-- C9: when `size` is zero the loops of `get_hex_string` and of `get_binary_string` run
no iteration and the result is the empty string: one unit of fuel, which pays for the
first test of the condition alone, is enough, and nothing is read.  The expression
`size - 1` of the body, which would wrap to `2 ^ 64 - 1`, is therefore not evaluated. -/
theorem zero_size_empty (var : ObjectRep) (h : var.sizeof = 0) :
    get_hex_string var = .ok "" ∧ get_binary_string var = .ok "" ∧
    (∀ st, get_hex_string_loop var.bytes var.sizeof 1 0 st = .ok st) ∧
    (∀ st, get_binary_string_loop var.bytes var.sizeof 1 0 st = .ok st) ∧
    get_hex_string_run var = .ok ⟨StringStream.init, []⟩ ∧
    get_binary_string_run var = .ok ⟨"", []⟩ ∧
    size_sub var.sizeof 1 = 2 ^ 64 - 1 := by
  have hb : var.bytes = [] := List.eq_nil_of_length_eq_zero h
  refine ⟨?_, ?_, ?_, ?_, ?_, ?_, ?_⟩
  · rw [get_hex_string_eq, hb]; rfl
  · rw [get_binary_string_eq, hb]; rfl
  · intro st; rw [h]; simp [get_hex_string_loop]
  · intro st; rw [h]; simp [get_binary_string_loop]
  · rw [get_hex_string_run, h]; simp [get_hex_string_loop]
  · rw [get_binary_string_run, h]; simp [get_binary_string_loop]
  · rw [h, size_sub_zero_one]; rfl

theorem zero_size_empty_witness :
    ObjectRep.sizeof ⟨[], by decide⟩ = 0 ∧
    get_hex_string ⟨[], by decide⟩ = .ok "" ∧ get_binary_string ⟨[], by decide⟩ = .ok "" :=
  ⟨rfl, (zero_size_empty ⟨[], by decide⟩ rfl).1, (zero_size_empty ⟨[], by decide⟩ rfl).2.1⟩

/-! ## The loop of the lane-detection demo -/

theorem int_to_size_t_lt (x : Int) : int_to_size_t x < SIZE_MOD := by
  unfold int_to_size_t
  have hpos : (0 : Int) < (SIZE_MOD : Int) := by exact_mod_cast SIZE_MOD_pos
  have h1 := Int.emod_lt_of_pos x hpos
  have h0 := Int.emod_nonneg x (ne_of_gt hpos)
  omega

theorem lane_loop_run {F : Type} (plus_rand : F → Nat → F) (num_lane bound : Int)
    (hb : int_sub num_lane 1 = .ok bound) :
    ∀ (k fuel i : Nat) (st : LaneState F), i + k = int_to_size_t bound → k < fuel →
      lane_loop plus_rand num_lane fuel i st
        = .ok { out := st.out ++ List.range' i k,
                s := (List.range' st.rand_calls k).foldl plus_rand st.s,
                rand_calls := st.rand_calls + k } := by
  intro k
  induction k with
  | zero =>
    intro fuel i st hi hf
    obtain ⟨f, rfl⟩ : ∃ f, fuel = f + 1 := ⟨fuel - 1, by omega⟩
    have : ¬ i < int_to_size_t bound := by omega
    rw [lane_loop]
    simp [hb, this]
  | succ k ih =>
    intro fuel i st hi hf
    obtain ⟨f, rfl⟩ : ∃ f, fuel = f + 1 := ⟨fuel - 1, by omega⟩
    have hlt : i < int_to_size_t bound := by omega
    have h3 : size_inc i = i + 1 := size_inc_of_lt hlt (int_to_size_t_lt bound)
    rw [lane_loop]
    simp only [hb, hlt, if_true, h3]
    rw [ih f (i + 1) _ (by omega) (by omega)]
    simp [List.range'_succ, Nat.add_assoc, Nat.add_comm 1 k]

theorem lane_loop_short {F : Type} (plus_rand : F → Nat → F) (num_lane bound : Int)
    (hb : int_sub num_lane 1 = .ok bound) :
    ∀ (fuel k i : Nat) (st : LaneState F), i + k = int_to_size_t bound → fuel ≤ k →
      lane_loop plus_rand num_lane fuel i st = .error .outOfFuel := by
  intro fuel
  induction fuel with
  | zero => intro k i st _ _; rfl
  | succ f ih =>
    intro k i st hi hf
    have hlt : i < int_to_size_t bound := by omega
    have h3 : size_inc i = i + 1 := size_inc_of_lt hlt (int_to_size_t_lt bound)
    rw [lane_loop]
    simp only [hb, hlt, if_true, h3]
    exact ih (k - 1) (i + 1) _ (by omega) (by omega)

theorem int_sub_zero_one : int_sub get_num_lanes 1 = .ok (-1) := by
  rfl

theorem int_to_size_t_neg_one : int_to_size_t (-1) = 2 ^ 64 - 1 := by
  decide

/-- C10: when `get_num_lanes` returns 0 the bound `num_lane - 1` is `-1`, which becomes
`2 ^ 64 - 1` as a `size_t`; the condition holds for `i = 0`, and the loop body runs for
every `i` from `0` to `2 ^ 64 - 2`, that is `2 ^ 64 - 1` times: with fuel for `2 ^ 64`
tests of the condition the loop ends having written exactly these values of `i`, and
with less it has not ended. -/
theorem lane_main_zero_lanes {F : Type} (zero : F) (plus_rand : F → Nat → F) :
    get_num_lanes = 0 ∧
    int_sub get_num_lanes 1 = .ok (-1) ∧
    int_to_size_t (-1) = 2 ^ 64 - 1 ∧
    0 < int_to_size_t (-1) ∧
    (∀ fuel, 2 ^ 64 ≤ fuel →
      lane_main zero plus_rand fuel
        = .ok { out := List.range (2 ^ 64 - 1),
                s := (List.range (2 ^ 64 - 1)).foldl plus_rand zero,
                rand_calls := 2 ^ 64 - 1 }) ∧
    (∀ fuel, fuel < 2 ^ 64 → lane_main zero plus_rand fuel = .error .outOfFuel) := by
  refine ⟨rfl, int_sub_zero_one, int_to_size_t_neg_one, ?_, ?_, ?_⟩
  · rw [int_to_size_t_neg_one]; decide
  · intro fuel hfuel
    have h := lane_loop_run plus_rand get_num_lanes (-1) int_sub_zero_one
      (int_to_size_t (-1)) fuel 0 { out := [], s := zero, rand_calls := 0 } (by simp)
      (by rw [int_to_size_t_neg_one]; omega)
    rw [lane_main, h, int_to_size_t_neg_one]
    simp only [List.nil_append, Nat.zero_add, List.range_eq_range']
  · intro fuel hfuel
    exact lane_loop_short plus_rand get_num_lanes (-1) int_sub_zero_one fuel
      (int_to_size_t (-1)) 0 _ (by simp) (by rw [int_to_size_t_neg_one]; omega)

theorem lane_main_zero_lanes_witness :
    (2 : Nat) ^ 64 ≤ 2 ^ 64 ∧
    lane_main (0 : Nat) (fun s _ => s + 1) (2 ^ 64)
      = .ok { out := List.range (2 ^ 64 - 1),
              s := (List.range (2 ^ 64 - 1)).foldl (fun s _ => s + 1) 0,
              rand_calls := 2 ^ 64 - 1 } :=
  ⟨Nat.le_refl _, (lane_main_zero_lanes (0 : Nat) (fun s _ => s + 1)).2.2.2.2.1 (2 ^ 64)
    (Nat.le_refl _)⟩

/-! ## Groups of a dump -/

theorem hex_field_no_space (v : Byte) : ' ' ∉ hex_field v := by
  intro hmem
  exact absurd (hex_field_class v _ hmem) (by decide)

theorem bin_field_no_space (v : Byte) : ' ' ∉ bin_field v := by
  intro hmem
  exact absurd (bin_field_class v _ hmem) (by decide)

set_option maxRecDepth 100000 in
theorem parse_hex_field : ∀ v : Byte, parse_digits 16 (hex_field v) = v.val := by
  decide

set_option maxRecDepth 100000 in
theorem parse_bin_field : ∀ v : Byte, parse_digits 2 (bin_field v) = v.val := by
  decide

theorem splitOn_joinGroups (f : Byte → List Char) (hsp : ∀ v, ' ' ∉ f v)
    (l : List Byte) (hl : l ≠ []) :
    (joinGroups f l).splitOn ' ' = l.map f := by
  rw [joinGroups_eq_intercalate]
  apply List.splitOn_intercalate
  · intro g hg
    obtain ⟨v, _, rfl⟩ := List.mem_map.mp hg
    exact hsp v
  · simpa using hl

theorem reverse_ne_nil_of_sizeof (var : ObjectRep) (h : 1 ≤ var.sizeof) :
    var.bytes.reverse ≠ [] := by
  intro hnil
  have hlen : var.bytes.reverse.length = var.sizeof := by simp [ObjectRep.sizeof]
  rw [hnil] at hlen
  simp at hlen
  omega

theorem dump_groups_hex (var : ObjectRep) (h : 1 ≤ var.sizeof) :
    dump_groups (String.mk (joinGroups hex_field var.bytes.reverse))
      = var.bytes.reverse.map hex_field :=
  splitOn_joinGroups hex_field hex_field_no_space _ (reverse_ne_nil_of_sizeof var h)

theorem dump_groups_bin (var : ObjectRep) (h : 1 ≤ var.sizeof) :
    dump_groups (String.mk (joinGroups bin_field var.bytes.reverse))
      = var.bytes.reverse.map bin_field :=
  splitOn_joinGroups bin_field bin_field_no_space _ (reverse_ne_nil_of_sizeof var h)

theorem reverse_eq_cons_of_last (b : List Byte) (n : Nat) (v : Byte)
    (hlen : b.length = n + 1) (hlast : b[n]? = some v) :
    ∃ rest, rest.length = n ∧ b.reverse = v :: rest := by
  cases hr : b.reverse with
  | nil =>
    have : b.reverse.length = n + 1 := by simp [hlen]
    rw [hr] at this
    simp at this
  | cons x l =>
    have h0 : b.reverse[0]? = b[b.length - 1 - 0]? := List.getElem?_reverse (by omega)
    have hidx : b.length - 1 - 0 = n := by omega
    rw [hr, hidx, hlast] at h0
    have hx : x = v := by simpa using h0
    have hl : (x :: l).length = n + 1 := by rw [← hr]; simp [hlen]
    exact ⟨l, by simpa using hl, by rw [hx]⟩

/-! ## Character arrays -/

/-- C11: a character array is dumped as raw bytes.  For every 10-byte array
`get_hex_string` returns 10 groups, 29 characters, one group for every byte whatever
the bytes are, zero bytes included; when the last byte `name[9]` is 0, as the
constructor of `Info` sets it, the output begins with the group `00` and a space. -/
theorem char_array_raw_dump :
    (∀ var : ObjectRep, var.sizeof = 10 →
      ∃ s, get_hex_string var = .ok s ∧ s.length = 29 ∧
        MatchesGroups 2 isLowerHexDigit 10 s.data ∧
        dump_groups s = var.bytes.reverse.map (fun v => (spec_hex_group v).data) ∧
        (dump_groups s).length = 10 ∧
        (var.bytes[9]? = some 0 → ∃ rest, s.data = '0' :: '0' :: ' ' :: rest)) ∧
    (∀ (name : List Byte) (var : ObjectRep), name.length = 10 →
      var.bytes = Info_ctor_name name →
      ∃ s rest, get_hex_string var = .ok s ∧ s.length = 29 ∧
        s.data = '0' :: '0' :: ' ' :: rest) := by
  have main : ∀ var : ObjectRep, var.sizeof = 10 →
      (String.mk (joinGroups hex_field var.bytes.reverse)).length = 29 ∧
      (var.bytes[9]? = some 0 →
        ∃ rest, joinGroups hex_field var.bytes.reverse = '0' :: '0' :: ' ' :: rest) := by
    intro var hsz
    have hN : var.bytes.reverse.length = 10 := by simpa [ObjectRep.sizeof] using hsz
    have hlen := joinGroups_length hex_field 2 hex_field_length var.bytes.reverse
    rw [hN] at hlen
    refine ⟨by simpa [String.length] using hlen, ?_⟩
    intro hlast
    obtain ⟨rest, hrest, hrev⟩ := reverse_eq_cons_of_last var.bytes 9 0 hsz hlast
    have hne : rest ≠ [] := by
      intro hnil
      rw [hnil] at hrest
      simp at hrest
    rw [hrev, joinGroups_cons, if_neg hne]
    exact ⟨joinGroups hex_field rest, rfl⟩
  refine ⟨?_, ?_⟩
  · intro var hsz
    have hN : var.bytes.reverse.length = 10 := by simpa [ObjectRep.sizeof] using hsz
    have hgroups := dump_groups_hex var (by omega)
    refine ⟨_, get_hex_string_eq var, (main var hsz).1, ?_, ?_, ?_, (main var hsz).2⟩
    · have := joinGroups_matches hex_field 2 hex_field_length isLowerHexDigit hex_field_class
        var.bytes.reverse (by omega)
      rwa [hN] at this
    · rw [hgroups]
      exact List.map_congr_left (fun v _ => hex_field_eq_spec v)
    · rw [hgroups]; simpa using hN
  · intro name var hlen hvar
    have hsz : var.sizeof = 10 := by
      simp [ObjectRep.sizeof, hvar, Info_ctor_name, hlen]
    have hlast : var.bytes[9]? = some 0 := by
      rw [hvar, Info_ctor_name]
      simp [List.getElem?_set, hlen]
    obtain ⟨rest, hrest⟩ := (main var hsz).2 hlast
    exact ⟨_, rest, get_hex_string_eq var, (main var hsz).1, hrest⟩

theorem char_array_raw_dump_witness :
    ([0x61, 0x62, 0, 0x7f, 0, 0, 0xff, 1, 2, 0x55] : List Byte).length = 10 ∧
    ∃ s rest,
      get_hex_string ⟨Info_ctor_name [0x61, 0x62, 0, 0x7f, 0, 0, 0xff, 1, 2, 0x55], by decide⟩
        = .ok s ∧
      s.length = 29 ∧ s.data = '0' :: '0' :: ' ' :: rest :=
  ⟨rfl, char_array_raw_dump.2 [0x61, 0x62, 0, 0x7f, 0, 0, 0xff, 1, 2, 0x55]
    ⟨Info_ctor_name [0x61, 0x62, 0, 0x7f, 0, 0, 0xff, 1, 2, 0x55], by decide⟩ rfl rfl⟩

/-! ## Reading the dump back -/

theorem objectRep_ext (a b : ObjectRep) (h : a.bytes = b.bytes) : a = b := by
  cases a
  cases b
  simp only [ObjectRep.mk.injEq]
  exact h

theorem hex_decode_joinGroups (var : ObjectRep) (h : 1 ≤ var.sizeof) :
    hex_decode (String.mk (joinGroups hex_field var.bytes.reverse))
      = var.bytes.map Fin.val := by
  rw [hex_decode, dump_groups_hex var h, List.map_map]
  have hfun : (parse_digits 16 ∘ hex_field) = (Fin.val : Byte → Nat) :=
    funext parse_hex_field
  rw [hfun, ← List.map_reverse, List.reverse_reverse]

/-- C12: `get_hex_string` loses no information.  For every value of at least one byte,
splitting the output at its spaces, reading every group as a base-16 number and
reversing the list gives back the bytes; and two values with the same output have the
same bytes. -/
theorem hex_round_trip :
    (∀ var : ObjectRep, 1 ≤ var.sizeof →
      ∃ s, get_hex_string var = .ok s ∧ hex_decode s = var.bytes.map Fin.val) ∧
    (∀ a b : ObjectRep, get_hex_string a = get_hex_string b → a = b) := by
  refine ⟨fun var h => ⟨_, get_hex_string_eq var, hex_decode_joinGroups var h⟩, ?_⟩
  intro a b hab
  rw [get_hex_string_eq, get_hex_string_eq] at hab
  have hstr : String.mk (joinGroups hex_field a.bytes.reverse)
      = String.mk (joinGroups hex_field b.bytes.reverse) := Except.ok.inj hab
  have hla := joinGroups_length hex_field 2 hex_field_length a.bytes.reverse
  have hlb := joinGroups_length hex_field 2 hex_field_length b.bytes.reverse
  have hdata : joinGroups hex_field a.bytes.reverse = joinGroups hex_field b.bytes.reverse :=
    congrArg String.data hstr
  rw [hdata] at hla
  simp only [List.length_reverse] at hla hlb
  apply objectRep_ext
  by_cases ha : a.bytes.length = 0
  · have hb : b.bytes.length = 0 := by omega
    rw [List.eq_nil_of_length_eq_zero ha, List.eq_nil_of_length_eq_zero hb]
  · have hb : b.bytes.length ≠ 0 := by omega
    have hda := hex_decode_joinGroups a (by show 1 ≤ a.bytes.length; omega)
    have hdb := hex_decode_joinGroups b (by show 1 ≤ b.bytes.length; omega)
    rw [hstr, hdb] at hda
    exact (List.map_injective_iff.mpr Fin.val_injective hda).symm

theorem hex_round_trip_witness :
    1 ≤ ObjectRep.sizeof ⟨[0x78, 0x56, 0x34, 0x12], by decide⟩ ∧
    ∃ s, get_hex_string ⟨[0x78, 0x56, 0x34, 0x12], by decide⟩ = .ok s ∧
      hex_decode s = ([0x78, 0x56, 0x34, 0x12] : List Byte).map Fin.val :=
  ⟨by decide, hex_round_trip.1 ⟨[0x78, 0x56, 0x34, 0x12], by decide⟩ (by decide)⟩

/-- C13: the two encodings agree.  For every value of `N ≥ 1` bytes and every `k < N`,
the `k`-th group of the output of `get_binary_string` read in base 2 and the `k`-th group
of the output of `get_hex_string` read in base 16 are both the byte at offset
`N - 1 - k`. -/
theorem binary_hex_groups_agree (var : ObjectRep) (h : 1 ≤ var.sizeof) :
    ∃ sh sb, get_hex_string var = .ok sh ∧ get_binary_string var = .ok sb ∧
      (dump_groups sh).length = var.sizeof ∧ (dump_groups sb).length = var.sizeof ∧
      ∀ k, k < var.sizeof → ∃ gh gb byte,
        (dump_groups sh)[k]? = some gh ∧ (dump_groups sb)[k]? = some gb ∧
        var.bytes[var.sizeof - 1 - k]? = some byte ∧
        parse_digits 2 gb = byte.val ∧ parse_digits 16 gh = byte.val ∧
        parse_digits 2 gb = parse_digits 16 gh := by
  have hN : var.bytes.length = var.sizeof := rfl
  refine ⟨_, _, get_hex_string_eq var, get_binary_string_eq var, ?_, ?_, ?_⟩
  · rw [dump_groups_hex var h]; simp [ObjectRep.sizeof]
  · rw [dump_groups_bin var h]; simp [ObjectRep.sizeof]
  · intro k hk
    have hk' : var.sizeof - 1 - k < var.bytes.length := by omega
    have hrev : var.bytes.reverse[k]? = some var.bytes[var.sizeof - 1 - k] := by
      rw [List.getElem?_reverse (by omega), hN, List.getElem?_eq_getElem hk']
    refine ⟨hex_field var.bytes[var.sizeof - 1 - k], bin_field var.bytes[var.sizeof - 1 - k],
      var.bytes[var.sizeof - 1 - k], ?_, ?_, List.getElem?_eq_getElem hk', parse_bin_field _,
      parse_hex_field _, ?_⟩
    · rw [dump_groups_hex var h, List.getElem?_map, hrev]; rfl
    · rw [dump_groups_bin var h, List.getElem?_map, hrev]; rfl
    · rw [parse_bin_field, parse_hex_field]

theorem binary_hex_groups_agree_witness :
    1 ≤ ObjectRep.sizeof ⟨[0x34, 0x12, 0xff], by decide⟩ ∧
    ∃ sh sb, get_hex_string ⟨[0x34, 0x12, 0xff], by decide⟩ = .ok sh ∧
      get_binary_string ⟨[0x34, 0x12, 0xff], by decide⟩ = .ok sb ∧
      (dump_groups sh).length = ObjectRep.sizeof ⟨[0x34, 0x12, 0xff], by decide⟩ ∧
      (dump_groups sb).length = ObjectRep.sizeof ⟨[0x34, 0x12, 0xff], by decide⟩ ∧
      ∀ k, k < ObjectRep.sizeof ⟨[0x34, 0x12, 0xff], by decide⟩ → ∃ gh gb byte,
        (dump_groups sh)[k]? = some gh ∧ (dump_groups sb)[k]? = some gb ∧
        (ObjectRep.mk [0x34, 0x12, 0xff] (by decide)).bytes[
          ObjectRep.sizeof ⟨[0x34, 0x12, 0xff], by decide⟩ - 1 - k]? = some byte ∧
        parse_digits 2 gb = byte.val ∧ parse_digits 16 gh = byte.val ∧
        parse_digits 2 gb = parse_digits 16 gh :=
  ⟨by decide, binary_hex_groups_agree ⟨[0x34, 0x12, 0xff], by decide⟩ (by decide)⟩

/-! ## Dumps of adjacent storage -/

theorem joinGroups_append (f : Byte → List Char) (l₁ l₂ : List Byte)
    (h₁ : l₁ ≠ []) (h₂ : l₂ ≠ []) :
    joinGroups f (l₁ ++ l₂) = joinGroups f l₁ ++ ' ' :: joinGroups f l₂ := by
  induction l₁ with
  | nil => exact absurd rfl h₁
  | cons x l ih =>
    have hne : l ++ l₂ ≠ [] := by simp [h₂]
    rw [List.cons_append, joinGroups_cons, if_neg hne, joinGroups_cons]
    by_cases hl : l = []
    · simp [hl]
    · rw [if_neg hl, ih hl]
      simp

theorem bytes_ne_nil_of_sizeof (var : ObjectRep) (h : 1 ≤ var.sizeof) : var.bytes ≠ [] := by
  intro hnil
  have : var.bytes.length = var.sizeof := rfl
  rw [hnil] at this
  simp at this
  omega

theorem joinGroups_concat (f : Byte → List Char) (a b c : ObjectRep)
    (ha : 1 ≤ a.sizeof) (hb : 1 ≤ b.sizeof) (hc : c.bytes = a.bytes ++ b.bytes) :
    String.mk (joinGroups f c.bytes.reverse)
      = String.mk (joinGroups f b.bytes.reverse) ++ " "
          ++ String.mk (joinGroups f a.bytes.reverse) := by
  apply String.ext
  rw [hc, List.reverse_append, joinGroups_append f _ _
    (by simpa using bytes_ne_nil_of_sizeof b hb) (by simpa using bytes_ne_nil_of_sizeof a ha)]
  simp [String.data_append]

/-- C14: for all non-empty byte sequences `a` and `b`, the dump of the concatenation
`a ++ b` is the dump of `b`, one space, and the dump of `a`, for `get_hex_string` and for
`get_binary_string`. -/
theorem dump_of_concatenation (a b c : ObjectRep) (ha : 1 ≤ a.sizeof) (hb : 1 ≤ b.sizeof)
    (hc : c.bytes = a.bytes ++ b.bytes) :
    (∃ sa sb, get_hex_string a = .ok sa ∧ get_hex_string b = .ok sb ∧
      get_hex_string c = .ok (sb ++ " " ++ sa)) ∧
    (∃ sa sb, get_binary_string a = .ok sa ∧ get_binary_string b = .ok sb ∧
      get_binary_string c = .ok (sb ++ " " ++ sa)) := by
  refine ⟨⟨_, _, get_hex_string_eq a, get_hex_string_eq b, ?_⟩,
    ⟨_, _, get_binary_string_eq a, get_binary_string_eq b, ?_⟩⟩
  · rw [get_hex_string_eq, joinGroups_concat hex_field a b c ha hb hc]
  · rw [get_binary_string_eq, joinGroups_concat bin_field a b c ha hb hc]

theorem dump_of_concatenation_witness :
    1 ≤ ObjectRep.sizeof ⟨[0x78, 0x56], by decide⟩ ∧
    1 ≤ ObjectRep.sizeof ⟨[0x34, 0x12], by decide⟩ ∧
    (ObjectRep.mk [0x78, 0x56, 0x34, 0x12] (by decide)).bytes
      = (ObjectRep.mk [0x78, 0x56] (by decide)).bytes
        ++ (ObjectRep.mk [0x34, 0x12] (by decide)).bytes ∧
    (∃ sa sb, get_hex_string ⟨[0x78, 0x56], by decide⟩ = .ok sa ∧
      get_hex_string ⟨[0x34, 0x12], by decide⟩ = .ok sb ∧
      get_hex_string ⟨[0x78, 0x56, 0x34, 0x12], by decide⟩ = .ok (sb ++ " " ++ sa)) ∧
    (∃ sa sb, get_binary_string ⟨[0x78, 0x56], by decide⟩ = .ok sa ∧
      get_binary_string ⟨[0x34, 0x12], by decide⟩ = .ok sb ∧
      get_binary_string ⟨[0x78, 0x56, 0x34, 0x12], by decide⟩ = .ok (sb ++ " " ++ sa)) :=
  ⟨by decide, by decide, rfl,
    dump_of_concatenation ⟨[0x78, 0x56], by decide⟩ ⟨[0x34, 0x12], by decide⟩
      ⟨[0x78, 0x56, 0x34, 0x12], by decide⟩ (by decide) (by decide) rfl⟩

/-! ## The lane-detection loop on a positive count -/

theorem SIZE_MOD_eq : SIZE_MOD = 2 ^ 64 := rfl

theorem int_to_size_t_of_nonneg (x : Int) (h0 : 0 ≤ x) (h1 : x < 2 ^ 64) :
    int_to_size_t x = x.toNat := by
  unfold int_to_size_t
  rw [SIZE_MOD_eq]
  have : x % ((2 ^ 64 : Nat) : Int) = x := Int.emod_eq_of_lt h0 (by exact_mod_cast h1)
  rw [this]

theorem int_to_size_t_of_neg (x : Int) (h0 : x < 0) (h1 : -(2 ^ 64) ≤ x) :
    (int_to_size_t x : Int) = x + 2 ^ 64 := by
  unfold int_to_size_t
  rw [SIZE_MOD_eq]
  have hM : (((2 ^ 64 : Nat)) : Int) = 2 ^ 64 := by norm_cast
  rw [hM]
  have h2 : x % (2 ^ 64 : Int) = x + 2 ^ 64 := by
    rw [← Int.add_emod_self]
    exact Int.emod_eq_of_lt (by omega) (by omega)
  rw [h2, Int.toNat_of_nonneg (by omega)]

theorem int_sub_one_ok (n : Int) (h1 : INT_MIN < n) (h2 : n ≤ INT_MAX) :
    int_sub n 1 = .ok (n - 1) := by
  unfold INT_MIN at h1
  unfold INT_MAX at h2
  have hcond : INT_MIN ≤ n - 1 ∧ n - 1 ≤ INT_MAX := by
    unfold INT_MIN INT_MAX
    constructor <;> omega
  simp [int_sub, hcond]

/-- C15: in the lane-detection loop, for every lane count `n` with `1 ≤ n ≤ INT_MAX` the
bound `n - 1` keeps its value when converted to `size_t` and the body runs exactly
`n - 1` times, `i` taking the values `0, 1, ..., n - 2` in order (no time for `n = 1`).
The pitfall needs `n ≤ 0`: for `INT_MIN < n ≤ 0` the converted bound is
`n - 1 + 2 ^ 64`, which is positive, and for `n = INT_MIN` the subtraction overflows. -/
theorem lane_loop_positive_count {F : Type} (zero : F) (plus_rand : F → Nat → F) :
    (∀ n : Int, 1 ≤ n → n ≤ INT_MAX →
      int_sub n 1 = .ok (n - 1) ∧
      (int_to_size_t (n - 1) : Int) = n - 1 ∧
      (∀ fuel, (n - 1).toNat < fuel →
        lane_loop plus_rand n fuel 0 { out := [], s := zero, rand_calls := 0 }
          = .ok { out := List.range (n - 1).toNat,
                  s := (List.range (n - 1).toNat).foldl plus_rand zero,
                  rand_calls := (n - 1).toNat }) ∧
      (∀ fuel, fuel ≤ (n - 1).toNat →
        lane_loop plus_rand n fuel 0 { out := [], s := zero, rand_calls := 0 }
          = .error .outOfFuel)) ∧
    (∀ fuel, 0 < fuel →
      lane_loop plus_rand 1 fuel 0 { out := [], s := zero, rand_calls := 0 }
        = .ok { out := [], s := zero, rand_calls := 0 }) ∧
    (∀ n : Int, INT_MIN < n → n ≤ 0 →
      int_sub n 1 = .ok (n - 1) ∧
      (int_to_size_t (n - 1) : Int) = n - 1 + 2 ^ 64 ∧
      0 < int_to_size_t (n - 1)) ∧
    int_sub INT_MIN 1 = .error .signedOverflow := by
  have pos : ∀ n : Int, 1 ≤ n → n ≤ INT_MAX →
      int_sub n 1 = .ok (n - 1) ∧ int_to_size_t (n - 1) = (n - 1).toNat := by
    intro n h1 h2
    refine ⟨int_sub_one_ok n (by unfold INT_MIN; omega) h2, ?_⟩
    unfold INT_MAX at h2
    exact int_to_size_t_of_nonneg (n - 1) (by omega) (by omega)
  refine ⟨?_, ?_, ?_, rfl⟩
  · intro n h1 h2
    obtain ⟨hsub, hconv⟩ := pos n h1 h2
    refine ⟨hsub, ?_, ?_, ?_⟩
    · rw [hconv, Int.toNat_of_nonneg (by omega)]
    · intro fuel hfuel
      have h := lane_loop_run plus_rand n (n - 1) hsub (n - 1).toNat fuel 0
        { out := [], s := zero, rand_calls := 0 } (by rw [hconv]; simp) hfuel
      rw [h]
      simp only [List.nil_append, Nat.zero_add, List.range_eq_range']
    · intro fuel hfuel
      exact lane_loop_short plus_rand n (n - 1) hsub fuel (n - 1).toNat 0 _
        (by rw [hconv]; simp) hfuel
  · intro fuel hfuel
    obtain ⟨hsub, hconv⟩ := pos 1 (by omega) (by unfold INT_MAX; omega)
    have h := lane_loop_run plus_rand 1 (1 - 1) hsub 0 fuel 0
      { out := [], s := zero, rand_calls := 0 } (by rw [hconv]; simp) hfuel
    rw [h]
    simp
  · intro n h1 h2
    have hconv := int_to_size_t_of_neg (n - 1) (by omega) (by unfold INT_MIN at h1; omega)
    refine ⟨int_sub_one_ok n h1 (by unfold INT_MAX; omega), hconv, ?_⟩
    unfold INT_MIN at h1
    omega

theorem lane_loop_positive_count_witness :
    (1 : Int) ≤ 4 ∧ (4 : Int) ≤ INT_MAX ∧ ((4 : Int) - 1).toNat < 4 ∧
    lane_loop (fun (s : Nat) k => s + k) 4 4 0 { out := [], s := 0, rand_calls := 0 }
      = .ok { out := List.range ((4 : Int) - 1).toNat,
              s := (List.range ((4 : Int) - 1).toNat).foldl (fun (s : Nat) k => s + k) 0,
              rand_calls := ((4 : Int) - 1).toNat } :=
  ⟨by decide, by decide, by decide,
    ((lane_loop_positive_count (0 : Nat) (fun s k => s + k)).1 4 (by decide)
      (by decide)).2.2.1 4 (by decide)⟩

end CppSnippets
